import Mathlib

/-!
Verification development for the bitchat-world-view ingestion/aggregation core.

The TypeScript source is shallowly embedded:
  - `getTagValue` from `src/lib/applesauce` (re-exported, used by `App.tsx`),
  - the chatroom aggregation, filtering and display reversal from `src/App.tsx`,
  - `decodeGeohash` and `mapPoints` from the Leaflet map component.
JavaScript numbers in the geohash decoder are IEEE-754 doubles.  Two models
embed them: an exact-rational model over `ℚ`, which coincides with the program
wherever every intermediate value fits in 53 significant bits (that covers
all inputs of at most 18 characters, in particular every input of the
concrete decode facts below), and a bit-exact rounding model (`Dy`, `RN`) of
finite double arithmetic — round to nearest, ties to even, subnormal grid at
2 ^ (-1074), overflow irrelevant at these magnitudes — used to exhibit the
saturation that rounding produces on long inputs.  JavaScript string
truthiness (`if (geohash)`,
`!selectedChatroom`) is embedded as an explicit test against the empty string.
Option-returning functions embed the `undefined`/`null` results.
-/

/-- A Nostr event as typed in `App.tsx` (`interface NostrEvent`). -/
structure NostrEvent where
  id : String
  pubkey : String
  created_at : Int
  content : String
  tags : List (List String)
deriving Repr, DecidableEq

/-- The helper `getTagValue(ev, tag)` from `src/lib/applesauce`:
`ev?.tags?.find((t) => t?.[0] === tag)?.[1]` — the second entry of the first
tag whose first entry equals `tag`, or `undefined` (here `none`). -/
def getTagValue (ev : NostrEvent) (tag : String) : Option String :=
  (ev.tags.find? (fun t => t.head? = some tag)).bind (fun t => t.get? 1)

/-- Modelled from the spec: the Event Store plus Timeline Aggregator
(`mapEventsToStore(eventStore)` and `mapEventsToTimeline()` from the
applesauce-core library, which is not part of this repository).  Spec §4.2:
admit a record only if no record with the same `id` is present; on a
duplicate the store is unchanged and the call reports non-admission.
Spec §4.3 / I2: the timeline appends each admitted event in arrival order.
The store and the timeline are merged into one list, as I2 forces them to
hold exactly the same events in the same arrival order. -/
def submitEvent (tl : List NostrEvent) (e : NostrEvent) : List NostrEvent × Bool :=
  if tl.any (fun x => x.id = e.id) then (tl, false) else (tl ++ [e], true)

/-- Modelled from the spec: feed a whole arrival sequence through the store. -/
def submitAll (tl : List NostrEvent) (es : List NostrEvent) : List NostrEvent :=
  es.foldl (fun t e => (submitEvent t e).1) tl

/-- A chatroom as typed in `App.tsx` (`interface Chatroom`). -/
structure Chatroom where
  geohash : String
  name : String
  messageCount : Nat
deriving Repr, DecidableEq

/-- One step of the `events.forEach` loop of the `chatrooms` memo in
`App.tsx`: look up the first `g` tag value; `if (geohash)` skips both a
missing value and the empty string (JS falsiness); a fresh geohash inserts
`{geohash, name: \x23 + geohash, messageCount: 0}` and the count is then
incremented, so a fresh entry carries count 1; an existing entry has its
count incremented in place.  The insertion-ordered `Map` is embedded as a
list ordered by first insertion. -/
def addEvent (rooms : List Chatroom) (ev : NostrEvent) : List Chatroom :=
  match getTagValue ev "g" with
  | none => rooms
  | some g =>
    if g = "" then rooms
    else if rooms.any (fun r => r.geohash = g) then
      rooms.map (fun r =>
        if r.geohash = g then { r with messageCount := r.messageCount + 1 } else r)
    else
      rooms ++ [{ geohash := g, name := "#" ++ g, messageCount := 1 }]

/-- The `Array.from(roomMap.values())` step of the `chatrooms` memo: the room list in
first-encounter order, before sorting. -/
def roomList (events : List NostrEvent) : List Chatroom :=
  events.foldl addEvent []

/-- The `.sort((a, b) => b.messageCount - a.messageCount)` step of the `chatrooms`
memo.  `Array.prototype.sort` is a stable sort; a stable sort by a fixed
comparator is uniquely determined by its output being a sorted, stable
permutation, and insertion sort with the relation
`fun a b => b.messageCount ≤ a.messageCount` has exactly those properties
(proved below), so it is a faithful embedding. -/
def sortRooms (rooms : List Chatroom) : List Chatroom :=
  rooms.insertionSort (fun a b => b.messageCount ≤ a.messageCount)

/-- The full `chatrooms` memo of `App.tsx`: aggregate, then sort by
descending message count. -/
def chatrooms (events : List NostrEvent) : List Chatroom :=
  sortRooms (roomList events)

/-- The `filteredEvents` memo of `App.tsx`:
`if (!events || !selectedChatroom) return events;` followed by
`events.filter((event) => getTagValue(event, "g") === selectedChatroom)`.
The selection is `string | null`; `!selectedChatroom` is true for `null`
(here `none`) and for the empty string (JS falsiness). -/
def filteredEvents (events : List NostrEvent) (selectedChatroom : Option String) :
    List NostrEvent :=
  match selectedChatroom with
  | none => events
  | some s =>
    if s = "" then events
    else events.filter (fun ev => getTagValue ev "g" = some s)

/-- The `map((t) => [...t].reverse())` display step of the timeline pipeline
in `App.tsx`.  `[...t]` copies the published array and `.reverse()` mutates
only that copy; the pair returned here is (displayed view, stored sequence
after the operation). -/
def displayTimeline (timeline : List NostrEvent) : List NostrEvent × List NostrEvent :=
  (timeline.reverse, timeline)

/-- The nonempty first `g` tag values of a timeline, in timeline order:
exactly the values that pass the `if (geohash)` test of the chatroom scan. -/
def geoTags (events : List NostrEvent) : List String :=
  events.filterMap (fun ev =>
    match getTagValue ev "g" with
    | none => none
    | some g => if g = "" then none else some g)

/-- First occurrence order: keep each string the first time it appears. -/
def firstOcc (l : List String) : List String :=
  l.foldl (fun acc g => if g ∈ acc then acc else acc ++ [g]) []

/-- The 32-symbol geohash alphabet of `decodeGeohash` in the map component. -/
def base32 : List Char := "0123456789bcdefghjkmnpqrstuvwxyz".toList

/-- The running state of the `decodeGeohash` loop. -/
structure DecodeState where
  lat : ℚ
  lng : ℚ
  latErr : ℚ
  lngErr : ℚ
  isEven : Bool
deriving Repr, DecidableEq

/-- Initial state of `decodeGeohash`: midpoints 0, half-widths 90 and 180,
longitude turn first. -/
def initState : DecodeState :=
  { lat := 0, lng := 0, latErr := 90, lngErr := 180, isEven := true }

/-- One bit of the inner `for (let j = 4; j >= 0; j--)` loop of
`decodeGeohash`: halve the half-width of the axis whose turn it is, move the
midpoint up or down by the halved width according to the bit, flip parity.
This is the exact-arithmetic reading of the loop; it agrees with the
IEEE-754 double computation of the program exactly as long as every value
fits in 53 significant bits, which holds on all inputs of at most 18
characters (see `stepBitFP` for the bit-exact rounded model). -/
def stepBit (st : DecodeState) (bit : Bool) : DecodeState :=
  if st.isEven then
    let e := st.lngErr / 2
    { st with lngErr := e, lng := if bit then st.lng + e else st.lng - e, isEven := false }
  else
    let e := st.latErr / 2
    { st with latErr := e, lat := if bit then st.lat + e else st.lat - e, isEven := true }

/-- The five bits of an alphabet index, most significant first
(`cd & (1 << j)` for `j = 4 .. 0`). -/
def charBits (cd : Nat) : List Bool :=
  [cd.testBit 4, cd.testBit 3, cd.testBit 2, cd.testBit 1, cd.testBit 0]

/-- The outer character loop of `decodeGeohash`: `base32.indexOf(c)`,
returning `null` (here `none`) on the first character not in the alphabet,
otherwise folding the five bits into the state. -/
def decodeChars : DecodeState → List Char → Option DecodeState
  | st, [] => some st
  | st, c :: cs =>
    match base32.findIdx? (fun b => b = c) with
    | none => none
    | some cd => decodeChars ((charBits cd).foldl stepBit st) cs

/-- The function `decodeGeohash` from the Leaflet map component: `null` on an invalid
character, otherwise the final `{lat, lng}` midpoints. -/
def decodeGeohash (geohash : String) : Option (ℚ × ℚ) :=
  (decodeChars initState geohash.toList).map (fun st => (st.lat, st.lng))

/-- The `mapPoints` memo of the Leaflet map component: for each chatroom,
decode its geohash; rooms whose geohash fails to decode are dropped
(`.map(...)` to `null` followed by `.filter(point => point !== null)`). -/
def mapPoints (rooms : List Chatroom) : List (Chatroom × ℚ × ℚ) :=
  rooms.filterMap (fun room =>
    (decodeGeohash room.geohash).map (fun c => (room, c.1, c.2)))

/-- Bit length of a natural number, with explicit fuel so that the recursion
is structural and kernel evaluation terminates. -/
def bitLenAux : Nat → Nat → Nat
  | 0, _ => 0
  | fuel + 1, n => if n = 0 then 0 else bitLenAux fuel (n / 2) + 1

/-- Bit length of a natural number: 0 for 0, otherwise one plus the floor of
the base-2 logarithm. -/
def bitLen (n : Nat) : Nat := bitLenAux n n

/-- A finite IEEE-754 double, held exactly as the dyadic rational m * 2 ^ e.
The representation is not normalized; `RN` keeps every stored value on the
double grid. -/
structure Dy where
  m : Int
  e : Int
deriving Repr, DecidableEq

/-- The exact rational value of a dyadic number. -/
def Dy.toRat (d : Dy) : ℚ := (d.m : ℚ) * (2 : ℚ) ^ d.e

/-- Round to nearest, ties to even: rounds the exact dyadic value m * 2 ^ e
to the IEEE-754 binary64 grid (53 significant bits per binade, subnormal grid
at 2 ^ (-1074)).  Overflow is not modelled: every value of the decoder loop
stays far below the largest double.  A value already on the grid is returned
unchanged. -/
def RN (x : Dy) : Dy :=
  if x.m = 0 then ⟨0, 0⟩
  else
    let n := x.m.natAbs
    let g := x.e + (bitLen n : Int) - 53
    let gp := max g (-1074)
    if gp ≤ x.e then x
    else
      let k := (gp - x.e).toNat
      let d := (1 <<< k : Nat)
      let q := n / d
      let r := n % d
      let half := (1 <<< (k - 1) : Nat)
      let q2 := if half < r ∨ (r = half ∧ q % 2 = 1) then q + 1 else q
      ⟨if x.m < 0 then -(q2 : Int) else (q2 : Int), gp⟩

/-- Exact (unrounded) sum of two dyadic numbers, by aligning exponents. -/
def dyAdd (x y : Dy) : Dy :=
  if x.e ≤ y.e then ⟨x.m + y.m * ((1 <<< (y.e - x.e).toNat : Nat) : Int), x.e⟩
  else ⟨x.m * ((1 <<< (x.e - y.e).toNat : Nat) : Int) + y.m, y.e⟩

/-- Correctly rounded double addition, as the JavaScript `+` performs it. -/
def fadd (x y : Dy) : Dy := RN (dyAdd x y)

/-- Correctly rounded double subtraction, as the JavaScript `-` performs it. -/
def fsub (x y : Dy) : Dy := RN (dyAdd x ⟨-y.m, y.e⟩)

/-- Correctly rounded double halving, as the JavaScript `/= 2` performs it
(exact except on the subnormal grid). -/
def fdiv2 (x : Dy) : Dy := RN ⟨x.m, x.e - 1⟩

/-- The running state of the `decodeGeohash` loop over IEEE-754 doubles. -/
structure DecodeStateFP where
  lat : Dy
  lng : Dy
  latErr : Dy
  lngErr : Dy
  isEven : Bool
deriving Repr, DecidableEq

/-- Initial double state of `decodeGeohash`. -/
def initStateFP : DecodeStateFP :=
  { lat := ⟨0, 0⟩, lng := ⟨0, 0⟩, latErr := ⟨90, 0⟩, lngErr := ⟨180, 0⟩,
    isEven := true }

/-- One bit of the `decodeGeohash` loop in IEEE-754 double arithmetic: each
assignment of the source (`lngErr /= 2`, `lng += lngErr`, ...) rounds its
result to the double grid. -/
def stepBitFP (st : DecodeStateFP) (bit : Bool) : DecodeStateFP :=
  if st.isEven then
    let e := fdiv2 st.lngErr
    let l := if bit then fadd st.lng e else fsub st.lng e
    { st with lngErr := e, lng := l, isEven := false }
  else
    let e := fdiv2 st.latErr
    let l := if bit then fadd st.lat e else fsub st.lat e
    { st with latErr := e, lat := l, isEven := true }

/-- The character loop of `decodeGeohash` over doubles. -/
def decodeCharsFP : DecodeStateFP → List Char → Option DecodeStateFP
  | st, [] => some st
  | st, c :: cs =>
    match base32.findIdx? (fun b => b = c) with
    | none => none
    | some cd => decodeCharsFP ((charBits cd).foldl stepBitFP st) cs

/-- `decodeGeohash` in IEEE-754 double arithmetic, as the JavaScript engine
executes it. -/
def decodeGeohashFP (geohash : String) : Option (Dy × Dy) :=
  (decodeCharsFP initStateFP geohash.toList).map (fun st => (st.lat, st.lng))

/-- The valid 22-character geocell made of the letter z repeated. -/
def geoZ22 : String := String.mk (List.replicate 22 'z')

/-- Invariant of the chatroom scan: after processing the prefix `pre` of the
timeline, the room list has pairwise distinct geocells, every room has a
nonempty geocell, the `#`-prefixed label, and a positive count equal to the
number of processed events whose first `g` tag value is its geocell, and
every nonempty `g` tag value seen so far owns a room. -/
def RoomsInv (pre : List NostrEvent) (rooms : List Chatroom) : Prop :=
  (rooms.map (fun r => r.geohash)).Nodup
  ∧ (∀ r ∈ rooms, r.geohash ≠ "" ∧ r.name = "#" ++ r.geohash ∧ 0 < r.messageCount ∧
      r.messageCount = (pre.filter (fun ev => getTagValue ev "g" = some r.geohash)).length)
  ∧ (∀ ev ∈ pre, ∀ g, getTagValue ev "g" = some g → g ≠ "" →
      g ∈ rooms.map (fun r => r.geohash))

/-- Invariant of the decoder loop: each half-width is positive and each
midpoint stays within its shrunken band. -/
def GoodState (st : DecodeState) : Prop :=
  0 < st.latErr ∧ st.latErr - 90 ≤ st.lat ∧ st.lat ≤ 90 - st.latErr
  ∧ 0 < st.lngErr ∧ st.lngErr - 180 ≤ st.lng ∧ st.lng ≤ 180 - st.lngErr

/-- Sample event with an undecodable geocell (the letter a is not in the
geohash alphabet). -/
def evA : NostrEvent :=
  { id := "idA", pubkey := "pk", created_at := 0, content := "m", tags := [["g", "a"]] }

/-- Sample event located in geocell u4. -/
def evU4a : NostrEvent :=
  { id := "id1", pubkey := "pk", created_at := 9, content := "m1", tags := [["g", "u4"]] }

/-- Second sample event in geocell u4, with an earlier timestamp. -/
def evU4b : NostrEvent :=
  { id := "id2", pubkey := "pk", created_at := 3, content := "m2", tags := [["g", "u4"]] }

/-- Sample event located in geocell u5. -/
def evU5 : NostrEvent :=
  { id := "id3", pubkey := "pk", created_at := 6, content := "m3", tags := [["g", "u5"]] }

/-- Sample event located in geocell x. -/
def evX : NostrEvent :=
  { id := "idX", pubkey := "pk", created_at := 0, content := "mx", tags := [["g", "x"]] }

/-- Sample event whose first g tag value is the empty string. -/
def evE : NostrEvent :=
  { id := "idE", pubkey := "pk", created_at := 0, content := "me", tags := [["g", ""]] }

/-- The chatroom derived from the two sample u4 events. -/
def roomU4 : Chatroom := { geohash := "u4", name := "#u4", messageCount := 2 }

lemma submitAll_eq_append :
    ∀ (es tl : List NostrEvent),
      ((tl ++ es).map (fun e => e.id)).Nodup → submitAll tl es = tl ++ es := by
  intro es
  induction es with
  | nil => intro tl _; simp [submitAll]
  | cons e es ih =>
    intro tl h
    have hnotin : tl.any (fun x => x.id = e.id) = false := by
      rw [List.map_append, List.nodup_append] at h
      obtain ⟨_, _, hdisj⟩ := h
      simp only [List.any_eq_false, decide_eq_true_eq]
      intro x hx hxe
      exact hdisj (List.mem_map_of_mem _ hx) (by simp [hxe])
    have hstep : (submitEvent tl e).1 = tl ++ [e] := by
      simp [submitEvent, hnotin]
    have h2 : (((tl ++ [e]) ++ es).map (fun x => x.id)).Nodup := by
      simpa [List.append_assoc] using h
    calc submitAll tl (e :: es) = submitAll (tl ++ [e]) es := by
          simp [submitAll, hstep]
      _ = (tl ++ [e]) ++ es := ih (tl ++ [e]) h2
      _ = tl ++ e :: es := by simp

lemma nodup_submitAll :
    ∀ (es tl : List NostrEvent), ((tl.map (fun e => e.id)).Nodup) →
      ((submitAll tl es).map (fun e => e.id)).Nodup := by
  intro es
  induction es with
  | nil => intro tl h; simpa [submitAll] using h
  | cons e es ih =>
    intro tl h
    by_cases hin : tl.any (fun x => x.id = e.id) = true
    · have hstep : (submitEvent tl e).1 = tl := by simp [submitEvent, hin]
      have : submitAll tl (e :: es) = submitAll tl es := by simp [submitAll, hstep]
      rw [this]; exact ih tl h
    · have hin2 : tl.any (fun x => x.id = e.id) = false := by
        simpa using hin
      have hstep : (submitEvent tl e).1 = tl ++ [e] := by
        simp [submitEvent, hin2]
      have hnotin : e.id ∉ tl.map (fun x => x.id) := by
        simp only [List.any_eq_false, decide_eq_true_eq] at hin2
        simp only [List.mem_map]
        rintro ⟨x, hx, hxe⟩
        exact hin2 x hx hxe
      have h2 : ((tl ++ [e]).map (fun x => x.id)).Nodup := by
        simp [List.nodup_append, h, hnotin]
      have : submitAll tl (e :: es) = submitAll (tl ++ [e]) es := by
        simp [submitAll, hstep]
      rw [this]; exact ih (tl ++ [e]) h2

/-- Claim C1: for any arrival sequence with distinct ids, the published
timeline (starting from the empty store) is exactly that sequence in arrival
order, regardless of the createdAt values, and a single admission never
changes the order of previously appended events: it only ever appends. -/
theorem timeline_order_preservation :
    (∀ es : List NostrEvent, (es.map (fun e => e.id)).Nodup → submitAll [] es = es)
    ∧ (∀ (tl : List NostrEvent) (e : NostrEvent),
        ∃ rest, (submitEvent tl e).1 = tl ++ rest) := by
  constructor
  · intro es h
    simpa using submitAll_eq_append es [] (by simpa using h)
  · intro tl e
    by_cases hin : tl.any (fun x => x.id = e.id) = true
    · exact ⟨[], by simp [submitEvent, hin]⟩
    · refine ⟨[e], ?_⟩
      simp only [Bool.not_eq_true] at hin
      simp [submitEvent, hin]

/-- Witness for C1 at a concrete arrival sequence with distinct ids. -/
theorem timeline_order_preservation_witness :
    submitAll [] [evU4a, evU4b, evU5] = [evU4a, evU4b, evU5] :=
  timeline_order_preservation.1 [evU4a, evU4b, evU5] (by decide)

/-- Claim C2: submitting the same id twice leaves exactly one entry in the
store and one occurrence in the timeline; the second submission returns the
store unchanged and reports non-admission (a boolean, not an error); and the
store never holds two events with the same id whatever is submitted. -/
theorem store_dedup (e : NostrEvent) (es : List NostrEvent) :
    (submitEvent [] e).1 = [e]
    ∧ submitEvent (submitEvent [] e).1 e = ((submitEvent [] e).1, false)
    ∧ ((submitEvent [] e).1.countP (fun x => x.id = e.id)) = 1
    ∧ ((submitAll [] es).map (fun x => x.id)).Nodup := by
  refine ⟨by simp [submitEvent], ?_, ?_, nodup_submitAll es [] (by simp)⟩
  · simp [submitEvent]
  · simp [submitEvent, List.countP_cons]

lemma roomsInv_nil : RoomsInv [] [] := by
  refine ⟨List.nodup_nil, ?_, ?_⟩ <;> simp

lemma addEvent_of_none {ev : NostrEvent} (rooms : List Chatroom)
    (h : getTagValue ev "g" = none) : addEvent rooms ev = rooms := by
  simp [addEvent, h]

lemma addEvent_of_empty {ev : NostrEvent} (rooms : List Chatroom)
    (h : getTagValue ev "g" = some "") : addEvent rooms ev = rooms := by
  simp [addEvent, h]

lemma addEvent_of_update {ev : NostrEvent} {g : String} (rooms : List Chatroom)
    (hG : getTagValue ev "g" = some g) (hge : g ≠ "")
    (hany : rooms.any (fun r => r.geohash = g) = true) :
    addEvent rooms ev = rooms.map (fun r =>
      if r.geohash = g then { r with messageCount := r.messageCount + 1 } else r) := by
  simp [addEvent, hG, hge, hany]

lemma addEvent_of_new {ev : NostrEvent} {g : String} (rooms : List Chatroom)
    (hG : getTagValue ev "g" = some g) (hge : g ≠ "")
    (hany : rooms.any (fun r => r.geohash = g) = false) :
    addEvent rooms ev = rooms ++ [{ geohash := g, name := "#" ++ g, messageCount := 1 }] := by
  simp [addEvent, hG, hge, hany]

lemma roomsInv_step (pre : List NostrEvent) (rooms : List Chatroom) (e : NostrEvent)
    (h : RoomsInv pre rooms) : RoomsInv (pre ++ [e]) (addEvent rooms e) := by
  obtain ⟨hnd, hr, hc⟩ := h
  rcases hG : getTagValue e "g" with _ | g
  · rw [addEvent_of_none rooms hG]
    refine ⟨hnd, ?_, ?_⟩
    · intro r hrm
      obtain ⟨h1, h2, h3, h4⟩ := hr r hrm
      refine ⟨h1, h2, h3, ?_⟩
      rw [List.filter_append]
      have hnil : [e].filter (fun ev => getTagValue ev "g" = some r.geohash) = [] := by
        simp [hG]
      simp [hnil, h4]
    · intro ev hev g2 hg2 hg2ne
      rcases List.mem_append.1 hev with hpre | hone
      · exact hc ev hpre g2 hg2 hg2ne
      · have heq : ev = e := by simpa using hone
        rw [heq, hG] at hg2
        cases hg2
  · by_cases hge : g = ""
    · subst hge
      rw [addEvent_of_empty rooms hG]
      refine ⟨hnd, ?_, ?_⟩
      · intro r hrm
        obtain ⟨h1, h2, h3, h4⟩ := hr r hrm
        refine ⟨h1, h2, h3, ?_⟩
        rw [List.filter_append]
        have hnil : [e].filter (fun ev => getTagValue ev "g" = some r.geohash) = [] := by
          have hne : ¬ ("" : String) = r.geohash := fun hcontra => h1 hcontra.symm
          simp [hG, hne]
        simp [hnil, h4]
      · intro ev hev g2 hg2 hg2ne
        rcases List.mem_append.1 hev with hpre | hone
        · exact hc ev hpre g2 hg2 hg2ne
        · have heq : ev = e := by simpa using hone
          rw [heq, hG] at hg2
          have hg2e : g2 = "" := by injection hg2.symm
          exact absurd hg2e hg2ne
    · by_cases hany : rooms.any (fun r => r.geohash = g) = true
      · rw [addEvent_of_update rooms hG hge hany]
        have hmapgeo :
            ((rooms.map (fun r =>
                if r.geohash = g then { r with messageCount := r.messageCount + 1 }
                else r)).map (fun r => r.geohash))
              = rooms.map (fun r => r.geohash) := by
          rw [List.map_map]
          apply List.map_congr_left
          intro r _
          by_cases hcase : r.geohash = g <;> simp [hcase]
        refine ⟨by rw [hmapgeo]; exact hnd, ?_, ?_⟩
        · intro r2 hr2
          rw [List.mem_map] at hr2
          obtain ⟨r, hrm, hupd⟩ := hr2
          obtain ⟨h1, h2, h3, h4⟩ := hr r hrm
          by_cases hcase : r.geohash = g
          · rw [if_pos hcase] at hupd
            subst hupd
            refine ⟨h1, h2, Nat.succ_pos _, ?_⟩
            rw [List.filter_append]
            have hone : [e].filter
                (fun ev => getTagValue ev "g" = some r.geohash) = [e] := by
              simp [hG, hcase]
            simp only [hone, List.length_append, List.length_singleton]
            simpa using h4
          · rw [if_neg hcase] at hupd
            subst hupd
            refine ⟨h1, h2, h3, ?_⟩
            rw [List.filter_append]
            have hnil : [e].filter
                (fun ev => getTagValue ev "g" = some r.geohash) = [] := by
              have hne : ¬ g = r.geohash := fun hcontra => hcase hcontra.symm
              simp [hG, hne]
            simp [hnil, h4]
        · intro ev hev g2 hg2 hg2ne
          rw [hmapgeo]
          rcases List.mem_append.1 hev with hpre | hone
          · exact hc ev hpre g2 hg2 hg2ne
          · have heq : ev = e := by simpa using hone
            rw [heq, hG] at hg2
            have hgg : g2 = g := by injection hg2.symm
            subst hgg
            rw [List.any_eq_true] at hany
            obtain ⟨r, hrm, hdec⟩ := hany
            rw [List.mem_map]
            exact ⟨r, hrm, by simpa using hdec⟩
      · have hanyf : rooms.any (fun r => r.geohash = g) = false := by
          simpa using hany
        rw [addEvent_of_new rooms hG hge hanyf]
        have hnog : ∀ r ∈ rooms, r.geohash ≠ g := by
          intro r hrm hgeq
          exact hany (List.any_eq_true.2 ⟨r, hrm, by simp [hgeq]⟩)
        have hgnotin : g ∉ rooms.map (fun r => r.geohash) := by
          rw [List.mem_map]
          rintro ⟨r, hrm, hgeq⟩
          exact hnog r hrm hgeq
        refine ⟨?_, ?_, ?_⟩
        · rw [List.map_append]
          refine List.Nodup.append hnd (by simp) ?_
          simpa using hgnotin
        · intro r2 hr2
          rcases List.mem_append.1 hr2 with hrm | hnew
          · obtain ⟨h1, h2, h3, h4⟩ := hr r2 hrm
            refine ⟨h1, h2, h3, ?_⟩
            rw [List.filter_append]
            have hnil : [e].filter
                (fun ev => getTagValue ev "g" = some r2.geohash) = [] := by
              have hne : ¬ g = r2.geohash := fun hcontra => hnog r2 hrm hcontra.symm
              simp [hG, hne]
            simp [hnil, h4]
          · have heq : r2 = { geohash := g, name := "#" ++ g, messageCount := 1 } := by
              simpa using hnew
            subst heq
            refine ⟨hge, rfl, Nat.one_pos, ?_⟩
            rw [List.filter_append]
            have hpre0 : pre.filter (fun ev => getTagValue ev "g" = some g) = [] := by
              rw [List.filter_eq_nil_iff]
              intro ev hev hp
              have hp2 : getTagValue ev "g" = some g := by simpa using hp
              exact hgnotin (hc ev hev g hp2 hge)
            have hone : [e].filter (fun ev => getTagValue ev "g" = some g) = [e] := by
              simp [hG]
            simp [hpre0, hone]
        · intro ev hev g2 hg2 hg2ne
          rw [List.map_append]
          rcases List.mem_append.1 hev with hpre | hone
          · exact List.mem_append_left _ (hc ev hpre g2 hg2 hg2ne)
          · have heq : ev = e := by simpa using hone
            rw [heq, hG] at hg2
            have hgg : g2 = g := by injection hg2.symm
            subst hgg
            simp

lemma roomsInv_foldl :
    ∀ (evs pre : List NostrEvent) (rooms : List Chatroom),
      RoomsInv pre rooms → RoomsInv (pre ++ evs) (evs.foldl addEvent rooms) := by
  intro evs
  induction evs with
  | nil => intro pre rooms h; simpa using h
  | cons e evs ih =>
    intro pre rooms h
    have h1 := roomsInv_step pre rooms e h
    have h2 := ih (pre ++ [e]) (addEvent rooms e) h1
    simpa [List.append_assoc] using h2

lemma roomsInv_roomList (events : List NostrEvent) : RoomsInv events (roomList events) := by
  have h := roomsInv_foldl events [] [] roomsInv_nil
  simpa [roomList] using h

instance : IsTotal Chatroom (fun a b => b.messageCount ≤ a.messageCount) :=
  ⟨fun a b => le_total b.messageCount a.messageCount⟩

instance : IsTrans Chatroom (fun a b => b.messageCount ≤ a.messageCount) :=
  ⟨fun _ _ _ hab hbc => le_trans hbc hab⟩

lemma sorted_sortRooms (l : List Chatroom) :
    (sortRooms l).Pairwise (fun a b => b.messageCount ≤ a.messageCount) :=
  List.sorted_insertionSort _ l

lemma mem_sortRooms {room : Chatroom} {l : List Chatroom} :
    room ∈ sortRooms l ↔ room ∈ l :=
  List.mem_insertionSort _

lemma filter_orderedInsert (c : ℕ) (a : Chatroom) (l : List Chatroom) :
    ((l.orderedInsert (fun x y => y.messageCount ≤ x.messageCount) a).filter
        (fun x => x.messageCount = c)) =
      if a.messageCount = c then a :: l.filter (fun x => x.messageCount = c)
      else l.filter (fun x => x.messageCount = c) := by
  induction l with
  | nil =>
    by_cases hac : a.messageCount = c <;> simp [List.orderedInsert, hac]
  | cons b l ih =>
    by_cases hba : b.messageCount ≤ a.messageCount
    · rw [List.orderedInsert_of_le (r := fun x y => y.messageCount ≤ x.messageCount) l hba]
      by_cases hac : a.messageCount = c <;> simp [List.filter_cons, hac]
    · have hrw : (b :: l).orderedInsert
          (fun x y => y.messageCount ≤ x.messageCount) a =
          b :: l.orderedInsert (fun x y => y.messageCount ≤ x.messageCount) a := by
        simp [List.orderedInsert, hba]
      rw [hrw]
      by_cases hac : a.messageCount = c
      · have hbc : ¬ b.messageCount = c := by omega
        simp [List.filter_cons, hbc, ih, hac]
      · by_cases hbc : b.messageCount = c <;> simp [List.filter_cons, hbc, ih, hac]

lemma filter_sortRooms (c : ℕ) (l : List Chatroom) :
    (sortRooms l).filter (fun x => x.messageCount = c)
      = l.filter (fun x => x.messageCount = c) := by
  induction l with
  | nil => rfl
  | cons a l ih =>
    have hrw : sortRooms (a :: l) =
        (sortRooms l).orderedInsert (fun x y => y.messageCount ≤ x.messageCount) a := by
      simp [sortRooms, List.insertionSort]
    rw [hrw, filter_orderedInsert]
    by_cases hac : a.messageCount = c <;> simp [List.filter_cons, hac, ih]

lemma map_geohash_foldl :
    ∀ (evs : List NostrEvent) (rooms : List Chatroom),
      ((evs.foldl addEvent rooms).map (fun r => r.geohash)) =
        (geoTags evs).foldl (fun acc g => if g ∈ acc then acc else acc ++ [g])
          (rooms.map (fun r => r.geohash)) := by
  intro evs
  induction evs with
  | nil => intro rooms; simp [geoTags]
  | cons e evs ih =>
    intro rooms
    rw [List.foldl_cons, ih (addEvent rooms e)]
    rcases hG : getTagValue e "g" with _ | g
    · rw [addEvent_of_none rooms hG]
      have hgt : geoTags (e :: evs) = geoTags evs := by
        simp [geoTags, List.filterMap_cons, hG]
      rw [hgt]
    · by_cases hge : g = ""
      · subst hge
        rw [addEvent_of_empty rooms hG]
        have hgt : geoTags (e :: evs) = geoTags evs := by
          simp [geoTags, List.filterMap_cons, hG]
        rw [hgt]
      · have hgt : geoTags (e :: evs) = g :: geoTags evs := by
          simp [geoTags, List.filterMap_cons, hG, hge]
        rw [hgt, List.foldl_cons]
        by_cases hany : rooms.any (fun r => r.geohash = g) = true
        · have hmem : g ∈ rooms.map (fun r => r.geohash) := by
            rw [List.any_eq_true] at hany
            obtain ⟨r, hrm, hdec⟩ := hany
            rw [List.mem_map]
            exact ⟨r, hrm, by simpa using hdec⟩
          have hmapgeo :
              ((addEvent rooms e).map (fun r => r.geohash))
                = rooms.map (fun r => r.geohash) := by
            rw [addEvent_of_update rooms hG hge hany, List.map_map]
            apply List.map_congr_left
            intro r _
            by_cases hcase : r.geohash = g <;> simp [hcase]
          rw [hmapgeo, if_pos hmem]
        · have hanyf : rooms.any (fun r => r.geohash = g) = false := by
            simpa using hany
          have hnotmem : g ∉ rooms.map (fun r => r.geohash) := by
            rw [List.mem_map]
            rintro ⟨r, hrm, hgeq⟩
            rw [List.any_eq_false] at hanyf
            exact absurd (by simpa using hgeq) (by simpa using hanyf r hrm)
          rw [addEvent_of_new rooms hG hge hanyf, List.map_append, if_neg hnotmem]
          rfl

lemma roomList_firstOcc (events : List NostrEvent) :
    (roomList events).map (fun r => r.geohash) = firstOcc (geoTags events) := by
  have h := map_geohash_foldl events []
  simpa [roomList, firstOcc] using h

/-- Claim C3: every chatroom in the aggregator output counts exactly the
timeline events whose first g tag value equals its geocell, its label is the
geocell prefixed with the hash mark, no chatroom with messageCount 0 ever
appears, and the output is a deterministic function of the timeline
contents. -/
theorem chatrooms_count_correct (events : List NostrEvent) (room : Chatroom)
    (h : room ∈ chatrooms events) :
    room.name = "#" ++ room.geohash
    ∧ 0 < room.messageCount
    ∧ room.messageCount
        = (events.filter (fun ev => getTagValue ev "g" = some room.geohash)).length
    ∧ ∀ events2, events2 = events → chatrooms events2 = chatrooms events := by
  have hmem : room ∈ roomList events := mem_sortRooms.1 h
  obtain ⟨_, hr, _⟩ := roomsInv_roomList events
  obtain ⟨_, h2, h3, h4⟩ := hr room hmem
  exact ⟨h2, h3, h4, fun _ he => by rw [he]⟩

/-- Witness for C3: scenario A of the spec, checked on the u4 chatroom. -/
theorem chatrooms_count_correct_witness :
    roomU4.name = "#" ++ roomU4.geohash
    ∧ 0 < roomU4.messageCount
    ∧ roomU4.messageCount
        = ([evU4a, evU4b, evU5].filter
            (fun ev => getTagValue ev "g" = some roomU4.geohash)).length
    ∧ ∀ events2, events2 = [evU4a, evU4b, evU5] →
        chatrooms events2 = chatrooms [evU4a, evU4b, evU5] :=
  chatrooms_count_correct [evU4a, evU4b, evU5] roomU4 (by decide)

/-- Claim C7: the chatroom list is sorted by descending messageCount; within
each count class the order is the order of the unsorted room list (stability),
and the unsorted room list is in first-encounter order of the geocells of the
timeline scan. -/
theorem chatrooms_sorted_stable (events : List NostrEvent) :
    (chatrooms events).Pairwise (fun a b => b.messageCount ≤ a.messageCount)
    ∧ (∀ c, (chatrooms events).filter (fun r => r.messageCount = c)
          = (roomList events).filter (fun r => r.messageCount = c))
    ∧ (roomList events).map (fun r => r.geohash) = firstOcc (geoTags events) :=
  ⟨sorted_sortRooms _, fun c => filter_sortRooms c _, roomList_firstOcc events⟩

/-- Counterexample to C4 as stated: with the selection set to the empty
string, the code returns the whole timeline, not the subsequence of events
whose first g tag value is the empty string. -/
theorem filter_empty_selection_cex :
    filteredEvents [evX] (some "")
      ≠ [evX].filter (fun ev => getTagValue ev "g" = some "") := by
  decide

/-- Claim C4 (amended): with no selection the filter returns the timeline
unchanged; with a nonempty selection it returns exactly the subsequence of
events whose first g tag value equals the selection, preserving relative
order; an empty-string selection behaves like no selection. -/
theorem filter_correct (events : List NostrEvent) (s : String) (hs : s ≠ "") :
    filteredEvents events none = events
    ∧ filteredEvents events (some s)
        = events.filter (fun ev => getTagValue ev "g" = some s)
    ∧ filteredEvents events (some "") = events :=
  ⟨rfl, by simp [filteredEvents, hs], rfl⟩

/-- Witness for C4 (amended) on scenario-C style data. -/
theorem filter_correct_witness :
    filteredEvents [evX] none = [evX]
    ∧ filteredEvents [evX] (some "x")
        = [evX].filter (fun ev => getTagValue ev "g" = some "x")
    ∧ filteredEvents [evX] (some "") = [evX] :=
  filter_correct [evX] "x" (by decide)

/-- Claim C10: an empty-string geocell is treated as absent: an event whose
first g tag value is the empty string changes no chatroom (appending it
leaves the chatroom list untouched), no chatroom ever has the empty geocell,
and filtering with the empty string returns the whole timeline. -/
theorem empty_geocell_absent (events : List NostrEvent) (ev : NostrEvent)
    (hg : getTagValue ev "g" = some "") :
    chatrooms (events ++ [ev]) = chatrooms events
    ∧ (∀ room ∈ chatrooms events, room.geohash ≠ "")
    ∧ filteredEvents events (some "") = events := by
  refine ⟨?_, ?_, rfl⟩
  · have hrl : roomList (events ++ [ev]) = roomList events := by
      simp only [roomList, List.foldl_append, List.foldl_cons, List.foldl_nil,
        addEvent_of_empty _ hg]
    unfold chatrooms
    rw [hrl]
  · intro room hrm
    have hmem : room ∈ roomList events := mem_sortRooms.1 hrm
    obtain ⟨_, hr, _⟩ := roomsInv_roomList events
    exact (hr room hmem).1

/-- Witness for C10 at a concrete timeline and empty-geocell event. -/
theorem empty_geocell_absent_witness :
    chatrooms ([evX] ++ [evE]) = chatrooms [evX]
    ∧ (∀ room ∈ chatrooms [evX], room.geohash ≠ "")
    ∧ filteredEvents [evX] (some "") = [evX] :=
  empty_geocell_absent [evX] evE (by decide)

/-- Counterexample to C6 as stated: the geocell letter a fails to decode,
yet an event carrying it does belong to a chatroom — the chatroom list of
that one-event timeline is exactly the one-element list for geocell a. -/
theorem invalid_geocell_chatroom_cex :
    decodeGeohash "a" = none
    ∧ chatrooms [evA] = [{ geohash := "a", name := "#a", messageCount := 1 }] := by
  constructor
  · simp +decide [decodeGeohash, decodeChars, base32, List.findIdx?]
  · decide

/-- Claim C6 (amended): an event whose g tag value fails to decode still
belongs to a chatroom; the failure is recovered locally at the map layer —
no map point ever carries an undecodable geocell, so that chatroom is simply
not placed — while the event remains in the timeline view and in its filter
view, and the decode failure is an ordinary value, never an exception. -/
theorem invalid_geocell_recovery (events : List NostrEvent) (ev : NostrEvent)
    (g : String) (hmem : ev ∈ events) (hg : getTagValue ev "g" = some g)
    (hne : g ≠ "") :
    g ∈ (chatrooms events).map (fun r => r.geohash)
    ∧ (∀ p ∈ mapPoints (chatrooms events), decodeGeohash g = none → p.1.geohash ≠ g)
    ∧ ev ∈ filteredEvents events none
    ∧ ev ∈ filteredEvents events (some g) := by
  refine ⟨?_, ?_, hmem, ?_⟩
  · obtain ⟨_, _, hc⟩ := roomsInv_roomList events
    have hin : g ∈ (roomList events).map (fun r => r.geohash) := hc ev hmem g hg hne
    rw [List.mem_map] at hin ⊢
    obtain ⟨r, hrm, hgeq⟩ := hin
    exact ⟨r, mem_sortRooms.2 hrm, hgeq⟩
  · intro p hp hdec
    unfold mapPoints at hp
    rw [List.mem_filterMap] at hp
    obtain ⟨room, _, hsome⟩ := hp
    rw [Option.map_eq_some'] at hsome
    obtain ⟨cpair, hdecode, hpe⟩ := hsome
    intro hcontra
    rw [← hpe] at hcontra
    rw [hcontra] at hdecode
    rw [hdecode] at hdec
    cases hdec
  · simp only [filteredEvents, if_neg hne, List.mem_filter]
    exact ⟨hmem, by simp [hg]⟩

/-- Witness for C6 (amended) at the undecodable geocell a. -/
theorem invalid_geocell_recovery_witness :
    "a" ∈ (chatrooms [evA]).map (fun r => r.geohash)
    ∧ (∀ p ∈ mapPoints (chatrooms [evA]),
        decodeGeohash "a" = none → p.1.geohash ≠ "a")
    ∧ evA ∈ filteredEvents [evA] none
    ∧ evA ∈ filteredEvents [evA] (some "a") :=
  invalid_geocell_recovery [evA] evA "a" (by decide) (by decide) (by decide)

/-- Claim C8: the display step publishes the reverse of the stored sequence
while leaving the stored sequence unchanged (same elements, same order), and
is recomputed from the new sequence whenever the timeline grows. -/
theorem display_reversal_frame (t : List NostrEvent) (e : NostrEvent) :
    (displayTimeline t).2 = t
    ∧ (displayTimeline t).1 = t.reverse
    ∧ (displayTimeline (t ++ [e])).1 = e :: (displayTimeline t).1 :=
  ⟨rfl, rfl, by simp [displayTimeline]⟩

lemma goodState_init : GoodState initState := by
  refine ⟨by norm_num [initState], by norm_num [initState], by norm_num [initState],
    by norm_num [initState], by norm_num [initState], by norm_num [initState]⟩

lemma goodState_stepBit (st : DecodeState) (b : Bool) (h : GoodState st) :
    GoodState (stepBit st b) := by
  obtain ⟨h1, h2, h3, h4, h5, h6⟩ := h
  rcases hE : st.isEven with _ | _ <;> rcases b with _ | _ <;>
      simp only [GoodState, stepBit, hE, if_true, if_false, Bool.false_eq_true,
        ite_true, ite_false] <;>
    refine ⟨?_, ?_, ?_, ?_, ?_, ?_⟩ <;> linarith

lemma goodState_foldlBits (bits : List Bool) :
    ∀ st, GoodState st → GoodState (bits.foldl stepBit st) := by
  induction bits with
  | nil => intro st h; exact h
  | cons b bs ih => intro st h; exact ih _ (goodState_stepBit st b h)

lemma goodState_decodeChars :
    ∀ (cs : List Char) (st st2 : DecodeState),
      GoodState st → decodeChars st cs = some st2 → GoodState st2 := by
  intro cs
  induction cs with
  | nil =>
    intro st st2 h heq
    simp only [decodeChars, Option.some.injEq] at heq
    rw [← heq]
    exact h
  | cons c cs ih =>
    intro st st2 h heq
    rw [decodeChars] at heq
    rcases hidx : base32.findIdx? (fun b => b = c) with _ | cd
    · rw [hidx] at heq
      cases heq
    · rw [hidx] at heq
      exact ih _ _ (goodState_foldlBits _ st h) heq

set_option maxRecDepth 40000 in
/-- Counterexample to C9 as stated: in the IEEE-754 double arithmetic the
program actually performs, the valid 22-character geocell of letters z
decodes successfully, yet the computed latitude is exactly 90 and the
computed longitude exactly 180 — on the boundary, not strictly inside it
(round-to-nearest saturates the midpoint onto the bound; the mantissa
6333186975989760 is 45 * 2 ^ 47, so 6333186975989760 * 2 ^ (-46) = 90 and
6333186975989760 * 2 ^ (-45) = 180). -/
theorem decode_strict_bounds_cex :
    decodeGeohashFP geoZ22
      = some (⟨6333186975989760, -46⟩, ⟨6333186975989760, -45⟩)
    ∧ Dy.toRat ⟨6333186975989760, -46⟩ = 90
    ∧ Dy.toRat ⟨6333186975989760, -45⟩ = 180
    ∧ ¬ Dy.toRat ⟨6333186975989760, -46⟩ < 90 :=
  ⟨by decide, by norm_num [Dy.toRat], by norm_num [Dy.toRat], by norm_num [Dy.toRat]⟩

/-- Claim C9 (amended): on every geocell string of at most 18 characters on
which the decoder succeeds — including the empty string — the returned
latitude is strictly between -90 and 90 and the returned longitude strictly
between -180 and 180.  Within this length every number the source loop
produces has the form j * 45 * 2 ^ (1 - i) with i at most 45 and
j * 45 below 2 ^ 53 in magnitude, hence is exactly representable as a
double: the double arithmetic of the program is exact there and coincides
with this exact-rational model.  On longer inputs rounding can saturate the
result to exactly 90 or 180 in magnitude (see the counterexample above). -/
theorem decode_bounds (s : String) (p : ℚ × ℚ) (_hlen : s.length ≤ 18)
    (h : decodeGeohash s = some p) :
    -90 < p.1 ∧ p.1 < 90 ∧ -180 < p.2 ∧ p.2 < 180 := by
  unfold decodeGeohash at h
  rcases hd : decodeChars initState s.toList with _ | st
  · rw [hd] at h
    cases h
  · rw [hd] at h
    simp only [Option.map_some', Option.some.injEq] at h
    obtain ⟨h1, h2, h3, h4, h5, h6⟩ :=
      goodState_decodeChars s.toList initState st goodState_init hd
    rw [← h]
    refine ⟨by linarith, by linarith, by linarith, by linarith⟩

/-- Witness for C9 (amended) at the empty geocell. -/
theorem decode_bounds_witness :
    decodeGeohash "" = some (0, 0)
    ∧ (-90 < ((0 : ℚ), (0 : ℚ)).1 ∧ ((0 : ℚ), (0 : ℚ)).1 < 90
        ∧ -180 < ((0 : ℚ), (0 : ℚ)).2 ∧ ((0 : ℚ), (0 : ℚ)).2 < 180) :=
  ⟨rfl, decode_bounds "" ((0 : ℚ), (0 : ℚ)) (by decide) rfl⟩

/-- Claim C5: decode determinism and centre convention — the empty string
decodes to (0, 0); the single character s decodes to a point with positive
latitude strictly below 90 and positive longitude strictly below 180; the
letter a (outside the alphabet) yields the failure value, not a partial or
zero result; identical input always yields identical output. -/
theorem decode_examples :
    decodeGeohash "" = some (0, 0)
    ∧ (∃ p, decodeGeohash "s" = some p
        ∧ 0 < p.1 ∧ p.1 < 90 ∧ 0 < p.2 ∧ p.2 < 180)
    ∧ decodeGeohash "a" = none
    ∧ (∀ s t : String, s = t → decodeGeohash s = decodeGeohash t) := by
  refine ⟨rfl,
    ⟨((45 : ℚ)/2, (45 : ℚ)/2), ?_, by norm_num, by norm_num, by norm_num, by norm_num⟩,
    ?_, fun s t h => by rw [h]⟩
  · simp +decide [decodeGeohash, decodeChars, base32, charBits, stepBit, initState,
      List.findIdx?]
    norm_num
  · simp +decide [decodeGeohash, decodeChars, base32, List.findIdx?]

/-- Witness for C5: the determinism conjunct applied at a concrete input. -/
theorem decode_examples_witness : decodeGeohash "u4" = decodeGeohash "u4" :=
  decode_examples.2.2.2 "u4" "u4" rfl
